import Mathlib

/-!
Verification of `splitter.py`: a tool that splits a concatenated text blob
(sections delimited by `===== FILE: <path> =====` marker lines) into files.

Strings are modelled as `List Char` (Python `str` indexing corresponds to
list positions).  The marker scan is modelled faithfully after CPython's
backtracking regex engine for the concrete pattern
`^===== FILE:\s*(.*?)\s*=====$` compiled with `re.MULTILINE`:
the first `\s*` is greedy (longest first), `(.*?)` is lazy (shortest first),
the second `\s*` is greedy, `^` matches at position 0 or right after a
newline, `$` matches at end of input or right before a newline, and `.`
matches any character except a newline.  `finditer` repeatedly finds the
match with the leftmost start at or after the end of the previous match.

Path resolution (`pathlib.Path.resolve`) is modelled for a POSIX filesystem
without symbolic links, with an abstract current working directory; CPython's
`os` layer raises `ValueError` on a path containing an embedded NUL byte, and
the model reports that as `Except.error`.
-/

deriving instance DecidableEq for Except

namespace Splitter

/-- Python's whitespace class: the characters matched by `\s` and stripped by
`str.strip()` for `str` patterns (ASCII whitespace plus the Unicode
whitespace code points). -/
def pyIsSpace (c : Char) : Bool :=
  let n := c.toNat
  (9 ≤ n && n ≤ 13) || (28 ≤ n && n ≤ 31) || n == 32 || n == 0x85 ||
    n == 0xA0 || n == 0x1680 || (0x2000 ≤ n && n ≤ 0x200A) ||
    n == 0x2028 || n == 0x2029 || n == 0x202F || n == 0x205F || n == 0x3000

/-- Python `str.strip()`: remove whitespace from both ends. -/
def pyStrip (l : List Char) : List Char :=
  ((l.dropWhile pyIsSpace).reverse.dropWhile pyIsSpace).reverse

/-- Python slicing `s[a:b]` (for `0 ≤ a`, `b ≤ len`). -/
def slice (s : List Char) (a b : Nat) : List Char :=
  (s.drop a).take (b - a)

/-- The literal `lit` occurs in `s` at position `p`. -/
def litAt (s : List Char) (p : Nat) (lit : List Char) : Bool :=
  lit.isPrefixOf (s.drop p)

/-- `^` in MULTILINE mode: position 0 or right after a newline. -/
def atLineStart (s : List Char) (p : Nat) : Bool :=
  p == 0 || s[p - 1]? == some '\n'

/-- `$` in MULTILINE mode: end of input or right before a newline. -/
def atLineEnd (s : List Char) (p : Nat) : Bool :=
  p == s.length || s[p]? == some '\n'

/-- Length of the maximal run of `\s` characters starting at `p`. -/
def wsRun (s : List Char) (p : Nat) : Nat :=
  ((s.drop p).takeWhile pyIsSpace).length

/-- Length of the maximal run of `.`-matchable (non-newline) characters
starting at `p`. -/
def dotRun (s : List Char) (p : Nat) : Nat :=
  ((s.drop p).takeWhile (fun c => !(c == '\n'))).length

/-- The fixed prefix of the marker pattern. -/
def markerLit : List Char :=
  ['=', '=', '=', '=', '=', ' ', 'F', 'I', 'L', 'E', ':']

/-- The closing run of equals signs of the marker pattern. -/
def eqFive : List Char := ['=', '=', '=', '=', '=']

/-- A regex match of the marker pattern: overall span `[start, stop)` and
group-1 span `[gstart, gstop)`. -/
structure RMatch where
  start : Nat
  stop : Nat
  gstart : Nat
  gstop : Nat
deriving DecidableEq, Repr

/-- Backtracking search for `\s*(.*?)\s*=====$` starting at position `q`
(just after `===== FILE:`), in the engine's preference order: the first
`\s*` greedy (outermost), `(.*?)` lazy, the second `\s*` greedy.  Returns
the chosen lengths `(a, c, b)` of the three variable parts. -/
def findDecomp (s : List Char) (q : Nat) : Option (Nat × Nat × Nat) :=
  (List.range (wsRun s q + 1)).reverse.findSome? (fun a =>
    (List.range (dotRun s (q + a) + 1)).findSome? (fun c =>
      (List.range (wsRun s (q + a + c) + 1)).reverse.findSome? (fun b =>
        if litAt s (q + a + c + b) eqFive && atLineEnd s (q + a + c + b + 5)
        then some (a, c, b) else none)))

/-- Attempt to match the marker pattern at position `p`. -/
def findMatchAt (s : List Char) (p : Nat) : Option RMatch :=
  if atLineStart s p && litAt s p markerLit then
    match findDecomp s (p + 11) with
    | some (a, c, b) =>
        some ⟨p, p + 11 + a + c + b + 5, p + 11 + a, p + 11 + a + c⟩
    | none => none
  else none

/-- Scan positions `pos, pos + 1, ...` while they are at most `s.length`,
returning the first match; `fuel` bounds the number of positions tried. -/
def ffGo (s : List Char) : Nat → Nat → Option RMatch
  | 0, _ => none
  | fuel + 1, pos =>
    if pos ≤ s.length then
      match findMatchAt s pos with
      | some m => some m
      | none => ffGo s fuel (pos + 1)
    else none

/-- Leftmost match starting at or after `pos`. -/
def findFirstFrom (s : List Char) (pos : Nat) : Option RMatch :=
  ffGo s (s.length + 1 - pos) pos

/-- The scan loop of `finditer`: collect successive leftmost matches,
resuming each search at the end of the previous match.  Every match of this
pattern has width at least 16, so `s.length + 1` steps of fuel suffice. -/
def scanFrom (s : List Char) : Nat → Nat → List RMatch
  | 0, _ => []
  | fuel + 1, pos =>
    match findFirstFrom s pos with
    | none => []
    | some m => m :: scanFrom s fuel m.stop

/-- `list(pattern.finditer(content))`. -/
def findIter (s : List Char) : List RMatch :=
  scanFrom s (s.length + 1) 0

/-- Drop exactly one leading newline when present
(`if file_content.startswith('\n'): file_content = file_content[1:]`). -/
def stripLeadNl : List Char → List Char
  | '\n' :: t => t
  | l => l

/-- The section-building loop of `parse_concatenated_file`: for the `i`-th
match, the content runs from `match.end()` to the start of the next match,
or to the end of the input for the last one. -/
def sectionsFrom (s : List Char) : List RMatch → List (List Char × List Char)
  | [] => []
  | m :: rest =>
    let e := match rest with
      | [] => s.length
      | m2 :: _ => m2.start
    (pyStrip (slice s m.gstart m.gstop), stripLeadNl (slice s m.stop e)) ::
      sectionsFrom s rest

/-- `parse_concatenated_file(content)`: the list of
`(file_path, file_content)` pairs. -/
def parse_concatenated_file (s : List Char) : List (List Char × List Char) :=
  sectionsFrom s (findIter s)

/-! ## Path resolution (POSIX, symlink-free, abstract cwd) -/

/-- A resolved absolute path, as its list of components from the root. -/
abbrev AbsPath := List (List Char)

/-- The path string contains an embedded NUL byte (rejected by CPython's
`os` layer with `ValueError`). -/
def hasNul (p : List Char) : Bool :=
  p.contains (Char.ofNat 0)

/-- Split a path string into its `/`-separated components (empty components
arise from repeated or trailing slashes and are skipped by resolution). -/
def splitSlash (p : List Char) : List (List Char) :=
  p.splitOn '/'

/-- The path string is absolute. -/
def isAbs (p : List Char) : Bool :=
  p.head? == some '/'

/-- Process components as POSIX resolution does (no symlinks): skip empty
and `.` components, `..` pops the last component (staying at the root), any
other component is appended. -/
def resolveFold (acc : AbsPath) : List (List Char) → AbsPath
  | [] => acc
  | c :: rest =>
    if c = [] ∨ c = ['.'] then resolveFold acc rest
    else if c = ['.', '.'] then resolveFold acc.dropLast rest
    else resolveFold (acc ++ [c]) rest

/-- `Path(p).resolve()` on a symlink-free POSIX filesystem with current
working directory `cwd` (itself resolved): absolute paths restart from the
root, relative ones from `cwd`; a NUL byte raises `ValueError`, modelled as
`Except.error`. -/
def pyResolve (cwd : AbsPath) (p : List Char) : Except Unit AbsPath :=
  if hasNul p then .error ()
  else .ok (resolveFold (if isAbs p then [] else cwd) (splitSlash p))

/-- `is_safe_path(base_dir, file_path)`.  `base = Path(base_dir).resolve()`
and `target = (base / file_path).resolve()` run outside the `try`, so their
`ValueError` (NUL byte) propagates (`Except.error`); the `try` only guards
`target.relative_to(base)`, which succeeds exactly when `base`'s components
are a prefix of `target`'s. -/
def is_safe_path (cwd : AbsPath) (base_dir file_path : List Char) :
    Except Unit Bool := do
  let base ← pyResolve cwd base_dir
  let target ← pyResolve base file_path
  .ok (base.isPrefixOf target)

/-! ## Filesystem model and the effectful functions -/

/-- Files on disk: an association list from resolved path to content; a
write prepends, and lookup takes the most recent entry. -/
abbrev FS := List (AbsPath × List Char)

/-- The content of the file at resolved path `k`, if any. -/
def fsLookup (fs : FS) (k : AbsPath) : Option (List Char) :=
  (fs.find? (fun e => e.1 = k)).map (fun e => e.2)

/-- `os.path.join(base, p)` on POSIX: an absolute `p` replaces `base`;
otherwise a `/` separator is inserted unless `base` is empty or already
ends with one. -/
def osJoin (base p : List Char) : List Char :=
  if isAbs p then p
  else if base = [] ∨ base.getLast? = some '/' then base ++ p
  else base ++ '/' :: p

/-- The loop of `list_files_status`, with the `has_unsafe` accumulator. -/
def lfsGo (cwd : AbsPath) (output_dir : List Char) :
    List (List Char × List Char) → Bool → Except Unit Bool
  | [], acc => .ok acc
  | (fp, _) :: rest, acc => do
    let b ← is_safe_path cwd output_dir fp
    lfsGo cwd output_dir rest (acc || !b)

/-- `list_files_status(files, output_dir)`: fold over the sections, marking
`has_unsafe` when a safety check fails.  The NEW/EXISTING classification
only affects printing, not the returned flag.  An exception escaping
`is_safe_path` (NUL byte) propagates (`Except.error`). -/
def list_files_status (cwd : AbsPath) (files : List (List Char × List Char))
    (output_dir : List Char) : Except Unit Bool :=
  lfsGo cwd output_dir files false

/-- The outcome of `write_files`: the filesystem, the `written_files` list
(in order), and `some 1` when the handler called `sys.exit(1)`. -/
structure WriteResult where
  fs : FS
  written : List (List Char)
  exitCode : Option Nat
deriving Repr

/-- One `open(full_path, "w").write(content)` step: resolve the target and
store the content (overwriting an earlier entry). -/
def writeStep (cwd : AbsPath) (fs : FS) (full_path content : List Char) :
    Except Unit FS := do
  let key ← pyResolve cwd full_path
  .ok ((key, content) :: fs)

/-- The loop of `write_files`, with `except Exception` behaviour inlined:
any failure (unsafe path raising `ValueError`, an exception escaping
`is_safe_path`, or an OS-level I/O failure, modelled by the oracle `ioOk`
indexed by the attempt number) stops the loop, reports the files written so
far, and exits with status 1.  `makedirs` is subsumed by the I/O oracle. -/
def wfGo (cwd : AbsPath) (output_dir : List Char) (ioOk : Nat → Bool) :
    Nat → List (List Char × List Char) → FS → List (List Char) → WriteResult
  | _, [], fs, written => ⟨fs, written.reverse, none⟩
  | idx, (fp, content) :: rest, fs, written =>
    match is_safe_path cwd output_dir fp with
    | .error _ => ⟨fs, written.reverse, some 1⟩
    | .ok false => ⟨fs, written.reverse, some 1⟩
    | .ok true =>
      let full := osJoin output_dir fp
      if ioOk idx then
        match writeStep cwd fs full content with
        | .error _ => ⟨fs, written.reverse, some 1⟩
        | .ok fs' => wfGo cwd output_dir ioOk (idx + 1) rest fs' (full :: written)
      else ⟨fs, written.reverse, some 1⟩

/-- `write_files(files, output_dir)`. -/
def write_files (cwd : AbsPath) (files : List (List Char × List Char))
    (output_dir : List Char) (fs : FS) (ioOk : Nat → Bool) : WriteResult :=
  wfGo cwd output_dir ioOk 0 files fs []

/-- Python `str.lower()` restricted to ASCII (the comparisons in `main` are
against the ASCII strings `"n"` and `"no"`). -/
def pyLowerStr (l : List Char) : List Char :=
  l.map Char.toLower

/-- The outcome of a run of `main` from the point where the input file has
been read: process exit status, final filesystem, files reported written,
and whether the process died of an uncaught exception. -/
structure MainResult where
  exitCode : Nat
  fs : FS
  written : List (List Char)
  uncaught : Bool
deriving Repr

/-- `main` after reading `content` (argument parsing, directory validation
and file reading precede this and touch no files).  `answer` is the reply
to the confirmation prompt; `none` models `KeyboardInterrupt`/`EOFError`
during `input()`. -/
def mainAfterRead (cwd : AbsPath) (content : List Char)
    (output_dir : List Char) (fs : FS) (answer : Option (List Char))
    (ioOk : Nat → Bool) : MainResult :=
  let files := parse_concatenated_file content
  if files.isEmpty then ⟨0, fs, [], false⟩
  else
    match list_files_status cwd files output_dir with
    | .error _ => ⟨1, fs, [], true⟩
    | .ok true => ⟨1, fs, [], false⟩
    | .ok false =>
      match answer with
      | none => ⟨0, fs, [], false⟩
      | some a =>
        let proceed := pyLowerStr (pyStrip a)
        if proceed = ['n'] ∨ proceed = ['n', 'o'] then ⟨0, fs, [], false⟩
        else
          let w := write_files cwd files output_dir fs ioOk
          match w.exitCode with
          | some c => ⟨c, w.fs, w.written, false⟩
          | none => ⟨0, w.fs, w.written, false⟩

/-! ## Claim-side notions -/

/-- The start of the `(i+1)`-th match, or the end of the input for the
last section. -/
def nextStart (s : List Char) (ms : List RMatch) (i : Nat) : Nat :=
  match ms[i + 1]? with
  | some m => m.start
  | none => s.length

/-- The spec's notion of containment: `target` is at or below `base`. -/
def belowOrAt (base target : AbsPath) : Prop :=
  ∃ rest, target = base ++ rest

/-- Step `j` of the write loop succeeds: the safety check passes and the
I/O oracle allows the write. -/
def stepOk (cwd : AbsPath) (output_dir : List Char) (ioOk : Nat → Bool)
    (j : Nat) (pr : List Char × List Char) : Prop :=
  is_safe_path cwd output_dir pr.1 = .ok true ∧ ioOk j = true

/-- All write-loop steps with index below `i` succeed. -/
def stepsOkBelow (cwd : AbsPath) (output_dir : List Char) (ioOk : Nat → Bool)
    (files : List (List Char × List Char)) (i : Nat) : Prop :=
  ∀ j, j < i →
    match files[j]? with
    | some prj => stepOk cwd output_dir ioOk j prj
    | none => True

instance (cwd : AbsPath) (output_dir : List Char) (ioOk : Nat → Bool)
    (j : Nat) (pr : List Char × List Char) :
    Decidable (stepOk cwd output_dir ioOk j pr) := by
  unfold stepOk; infer_instance

instance (cwd : AbsPath) (output_dir : List Char) (ioOk : Nat → Bool)
    (j : Nat) (o : Option (List Char × List Char)) :
    Decidable (match o with
      | some prj => stepOk cwd output_dir ioOk j prj
      | none => True) := by
  cases o with
  | none => exact inferInstanceAs (Decidable True)
  | some pr => exact inferInstanceAs (Decidable (stepOk cwd output_dir ioOk j pr))

instance (cwd : AbsPath) (output_dir : List Char) (ioOk : Nat → Bool)
    (files : List (List Char × List Char)) (i : Nat) :
    Decidable (stepsOkBelow cwd output_dir ioOk files i) := by
  unfold stepsOkBelow
  infer_instance

/-- The filesystem after the successful writes of `files`, in order. -/
def fsAfterWrites (cwd : AbsPath) (output_dir : List Char) (fs : FS)
    (files : List (List Char × List Char)) : FS :=
  files.foldl (fun acc pr =>
    match pyResolve cwd (osJoin output_dir pr.1) with
    | .ok k => (k, pr.2) :: acc
    | .error _ => acc) fs

/-- The content of the last section of `files` that resolves to `k`. -/
def lastContentFor (cwd : AbsPath) (output_dir : List Char)
    (files : List (List Char × List Char)) (k : AbsPath) : Option (List Char) :=
  files.foldl (fun acc pr =>
    if pyResolve cwd (osJoin output_dir pr.1) = .ok k then some pr.2 else acc)
    none

/-- The concatenated-input example from the specification. -/
def exInput : List Char :=
  ("===== FILE: a.txt =====\nhello\n===== FILE: b/c.txt =====\nworld").data

/-! ## Basic lemmas about the parser loop -/

theorem sectionsFrom_length (s : List Char) (ms : List RMatch) :
    (sectionsFrom s ms).length = ms.length := by
  induction ms with
  | nil => rfl
  | cons m rest ih => simp [sectionsFrom, ih]

theorem sectionsFrom_getElem? (s : List Char) :
    ∀ (ms : List RMatch) (i : Nat) (m : RMatch), ms[i]? = some m →
      (sectionsFrom s ms)[i]? =
        some (pyStrip (slice s m.gstart m.gstop),
              stripLeadNl (slice s m.stop (nextStart s ms i))) := by
  intro ms
  induction ms with
  | nil => intro i m h; simp at h
  | cons m0 rest ih =>
    intro i m h
    cases i with
    | zero =>
      simp only [List.getElem?_cons_zero, Option.some.injEq] at h
      subst h
      cases rest with
      | nil => simp [sectionsFrom, nextStart]
      | cons m2 r2 => simp [sectionsFrom, nextStart]
    | succ i =>
      have hr : rest[i]? = some m := by simpa using h
      have := ih i m hr
      simpa [sectionsFrom, nextStart] using this

/-- **C1**: for every input, the parser returns one `(path, content)` pair
per marker match, in order of appearance; the path is the match's captured
text stripped of surrounding whitespace, and the content is exactly the
slice of the input from the match's end to the next match's start (or the
end of the input for the last match), with exactly one leading newline
removed when present and nothing removed from the end. -/
theorem parse_yields_exact_sections (s : List Char) :
    (parse_concatenated_file s).length = (findIter s).length ∧
    ∀ (i : Nat) (m : RMatch), (findIter s)[i]? = some m →
      (parse_concatenated_file s)[i]? =
        some (pyStrip (slice s m.gstart m.gstop),
              stripLeadNl (slice s m.stop (nextStart s (findIter s) i))) := by
  refine ⟨sectionsFrom_length s (findIter s), ?_⟩
  intro i m h
  exact sectionsFrom_getElem? s (findIter s) i m h

/-- Witness for C1 at the specification's own example. -/
theorem parse_yields_exact_sections_witness :
    (parse_concatenated_file exInput)[0]? =
      some (pyStrip (slice exInput 12 17),
            stripLeadNl (slice exInput 23 (nextStart exInput (findIter exInput) 0))) :=
  (parse_yields_exact_sections exInput).2 0 ⟨0, 23, 12, 17⟩ (by decide)

/-! ## Path-safety lemmas -/

theorem isPrefixOf_iff_exists (l₁ l₂ : AbsPath) :
    l₁.isPrefixOf l₂ = true ↔ ∃ t, l₂ = l₁ ++ t := by
  induction l₁ generalizing l₂ with
  | nil => simp [List.isPrefixOf]
  | cons a t ih =>
    cases l₂ with
    | nil => simp [List.isPrefixOf]
    | cons b t₂ =>
      simp only [List.isPrefixOf, Bool.and_eq_true, beq_iff_eq, ih,
        List.cons_append, List.cons.injEq]
      constructor
      · rintro ⟨rfl, r, rfl⟩; exact ⟨r, rfl, rfl⟩
      · rintro ⟨r, rfl, rfl⟩; exact ⟨rfl, r, rfl⟩

/-- **C2**: `is_safe_path` returns `true` exactly when the candidate path,
resolved against the resolved base directory, lands at or below that base;
in particular it rejects the traversal path `../secret.txt` and the
absolute-path override `/etc/passwd` for base directory `/out`. -/
theorem safe_path_iff_below :
    (∀ (cwd : AbsPath) (base_dir file_path : List Char) (b t : AbsPath),
        pyResolve cwd base_dir = .ok b →
        pyResolve b file_path = .ok t →
        (is_safe_path cwd base_dir file_path = .ok true ↔ belowOrAt b t)) ∧
    is_safe_path [] ("/out").data ("../secret.txt").data = .ok false ∧
    is_safe_path [] ("/out").data ("/etc/passwd").data = .ok false := by
  refine ⟨?_, by decide, by decide⟩
  intro cwd base_dir file_path b t h1 h2
  simp only [is_safe_path, bind, Except.bind, h1, h2, belowOrAt]
  constructor
  · intro h
    have : b.isPrefixOf t = true := by
      cases hb : b.isPrefixOf t with
      | false => rw [hb] at h; exact absurd (Except.ok.inj h) (by simp)
      | true => rfl
    exact (isPrefixOf_iff_exists b t).mp this
  · intro h
    rw [(isPrefixOf_iff_exists b t).mpr h]

/-- Witness for C2 at a concrete safe path. -/
theorem safe_path_iff_below_witness :
    is_safe_path [] ("/out").data ("sub/x.txt").data = .ok true ↔
      belowOrAt [("out").data] [("out").data, ("sub").data, ("x.txt").data] :=
  safe_path_iff_below.1 [] ("/out").data ("sub/x.txt").data
    [("out").data] [("out").data, ("sub").data, ("x.txt").data]
    (by decide) (by decide)

/-- Counterexample to **C4** as stated: a candidate path containing an
embedded NUL byte makes `Path.resolve` raise `ValueError` before the `try`
block is entered, so `is_safe_path` raises instead of returning `False`. -/
theorem safe_path_nul_raises : is_safe_path [] ("/out").data ['\x00'] = .error () := by
  decide

/-- **C4 (amended)**: for every base directory and candidate path that are
free of embedded NUL bytes, `is_safe_path` never raises: it returns exactly
the boolean of the containment check on the resolved paths, so a failed
containment check is reported as unsafe (`.ok false`).  (For a path with an
embedded NUL byte, resolution itself raises `ValueError` outside the `try`
block, so such a failure is not reported as unsafe.) -/
theorem safe_path_no_nul_total :
    ∀ (cwd : AbsPath) (base_dir file_path : List Char),
      hasNul base_dir = false → hasNul file_path = false →
      ∃ (base target : AbsPath),
        pyResolve cwd base_dir = .ok base ∧
        pyResolve base file_path = .ok target ∧
        is_safe_path cwd base_dir file_path = .ok (base.isPrefixOf target) ∧
        (base.isPrefixOf target = false ↔ ¬ belowOrAt base target) := by
  intro cwd base_dir file_path h1 h2
  have hb : pyResolve cwd base_dir =
      .ok (resolveFold (if isAbs base_dir then [] else cwd)
        (splitSlash base_dir)) := by
    simp [pyResolve, h1]
  set base := resolveFold (if isAbs base_dir then [] else cwd)
    (splitSlash base_dir) with hbase
  have ht : pyResolve base file_path =
      .ok (resolveFold (if isAbs file_path then [] else base)
        (splitSlash file_path)) := by
    simp [pyResolve, h2]
  set target := resolveFold (if isAbs file_path then [] else base)
    (splitSlash file_path) with htarget
  refine ⟨base, target, hb, ht, ?_, ?_⟩
  · simp [is_safe_path, hb, ht, bind, Except.bind]
  · constructor
    · intro hfalse hbelow
      obtain ⟨r, hr⟩ := hbelow
      have := (isPrefixOf_iff_exists base target).mpr ⟨r, hr⟩
      rw [hfalse] at this
      exact Bool.false_ne_true this
    · intro hnb
      cases hp : base.isPrefixOf target with
      | false => rfl
      | true => exact absurd ((isPrefixOf_iff_exists base target).mp hp) hnb

/-- Witness for the amended C4, at a traversal path whose containment check
fails and is reported as unsafe. -/
theorem safe_path_no_nul_total_witness :
    ∃ (base target : AbsPath),
      pyResolve [] ("/out").data = .ok base ∧
      pyResolve base ("../secret.txt").data = .ok target ∧
      is_safe_path [] ("/out").data ("../secret.txt").data =
        .ok (base.isPrefixOf target) ∧
      (base.isPrefixOf target = false ↔ ¬ belowOrAt base target) :=
  safe_path_no_nul_total [] ("/out").data ("../secret.txt").data
    (by decide) (by decide)

/-- **C6**: for an input with no marker match, parsing returns the empty
list (not an error) and the run exits with status 0 without performing any
filesystem write. -/
theorem no_markers_empty_and_exit_zero :
    ∀ (s : List Char), findIter s = [] →
      parse_concatenated_file s = [] ∧
      ∀ (cwd : AbsPath) (output_dir : List Char) (fs : FS)
        (answer : Option (List Char)) (ioOk : Nat → Bool),
        mainAfterRead cwd s output_dir fs answer ioOk = ⟨0, fs, [], false⟩ := by
  intro s h
  have hp : parse_concatenated_file s = [] := by
    simp [parse_concatenated_file, h, sectionsFrom]
  refine ⟨hp, ?_⟩
  intro cwd output_dir fs answer ioOk
  simp [mainAfterRead, hp]

/-- Witness for C6 on a markerless input. -/
theorem no_markers_empty_and_exit_zero_witness :
    parse_concatenated_file ("hello world").data = [] ∧
    mainAfterRead [] ("hello world").data ("/out").data [] none (fun _ => true) =
      ⟨0, [], [], false⟩ :=
  ⟨(no_markers_empty_and_exit_zero ("hello world").data (by decide)).1,
   (no_markers_empty_and_exit_zero ("hello world").data (by decide)).2
     [] ("/out").data [] none (fun _ => true)⟩

/-! ## The unsafe-path gate -/

theorem lfsGo_ok_true_iff (cwd : AbsPath) (output_dir : List Char) :
    ∀ (files : List (List Char × List Char)) (acc : Bool),
      (∀ pr ∈ files, is_safe_path cwd output_dir pr.1 ≠ .error ()) →
      (lfsGo cwd output_dir files acc = .ok true ↔
        acc = true ∨ ∃ pr ∈ files, is_safe_path cwd output_dir pr.1 = .ok false) := by
  intro files
  induction files with
  | nil =>
    intro acc _
    simp only [lfsGo, List.not_mem_nil, false_and, exists_const, or_false,
      List.mem_nil_iff]
    constructor
    · intro h; exact (Except.ok.inj h)
    · intro h; rw [h]
  | cons hd rest ih =>
    intro acc hok
    obtain ⟨fp, c⟩ := hd
    cases hs : is_safe_path cwd output_dir fp with
    | error e =>
      cases e
      exact absurd hs (hok (fp, c) (List.mem_cons_self _ _))
    | ok b =>
      have hrest : ∀ pr ∈ rest, is_safe_path cwd output_dir pr.1 ≠ .error () :=
        fun pr hpr => hok pr (List.mem_cons_of_mem _ hpr)
      have hstep : lfsGo cwd output_dir ((fp, c) :: rest) acc =
          lfsGo cwd output_dir rest (acc || !b) := by
        simp [lfsGo, hs, bind, Except.bind]
      rw [hstep, ih (acc || !b) hrest]
      constructor
      · rintro (hacc | hex)
        · rcases Bool.or_eq_true_iff.mp hacc with h | h
          · exact Or.inl h
          · refine Or.inr ⟨(fp, c), List.mem_cons_self _ _, ?_⟩
            rw [hs]; cases b with
            | false => rfl
            | true => simp at h
        · exact Or.inr (hex.imp fun pr h => ⟨List.mem_cons_of_mem _ h.1, h.2⟩)
      · rintro (hacc | ⟨pr, hmem, hunsafe⟩)
        · exact Or.inl (by simp [hacc])
        · rcases List.mem_cons.mp hmem with rfl | hmem'
          · rw [hs] at hunsafe
            have : b = false := by
              cases b with
              | false => rfl
              | true => exact absurd (Except.ok.inj hunsafe) (by simp)
            exact Or.inl (by simp [this])
          · exact Or.inr ⟨pr, hmem', hunsafe⟩

/-- **C3**: `list_files_status` reports `True` exactly when some parsed
section has an unsafe path, and in that case the run exits with status 1
with the filesystem untouched and nothing written — an all-or-nothing
gate: `write_files` is never reached, no matter how many other paths are
safe. -/
theorem unsafe_path_aborts_whole_run :
    ∀ (cwd : AbsPath) (s output_dir : List Char) (fs : FS)
      (answer : Option (List Char)) (ioOk : Nat → Bool),
      (∀ pr ∈ parse_concatenated_file s,
        is_safe_path cwd output_dir pr.1 ≠ .error ()) →
      (list_files_status cwd (parse_concatenated_file s) output_dir = .ok true ↔
        ∃ pr ∈ parse_concatenated_file s,
          is_safe_path cwd output_dir pr.1 = .ok false) ∧
      (list_files_status cwd (parse_concatenated_file s) output_dir = .ok true →
        mainAfterRead cwd s output_dir fs answer ioOk = ⟨1, fs, [], false⟩) := by
  intro cwd s output_dir fs answer ioOk hok
  constructor
  · rw [list_files_status, lfsGo_ok_true_iff cwd output_dir _ false hok]
    simp
  · intro htrue
    unfold mainAfterRead
    cases hE : (parse_concatenated_file s).isEmpty with
    | true =>
      exfalso
      rw [List.isEmpty_iff.mp hE] at htrue
      exact absurd (Except.ok.inj htrue) (by simp [list_files_status, lfsGo])
    | false =>
      simp only [hE, Bool.false_eq_true, if_false, htrue]

/-- Witness for C3: an input whose second section escapes the output
directory aborts with exit 1 and no writes, though the first path is safe. -/
theorem unsafe_path_aborts_whole_run_witness :
    mainAfterRead [] ("===== FILE: ok.txt =====\nx\n===== FILE: ../secret.txt =====\ny").data
      ("/out").data [] (some []) (fun _ => true) = ⟨1, [], [], false⟩ :=
  (unsafe_path_aborts_whole_run []
      ("===== FILE: ok.txt =====\nx\n===== FILE: ../secret.txt =====\ny").data
      ("/out").data [] (some []) (fun _ => true) (by decide)).2 (by decide)

/-! ## The write loop -/

theorem is_safe_path_ok_no_nul {cwd : AbsPath} {output_dir fp : List Char}
    {b : Bool} (h : is_safe_path cwd output_dir fp = .ok b) :
    hasNul output_dir = false ∧ hasNul fp = false := by
  cases hd : hasNul output_dir with
  | true => simp [is_safe_path, pyResolve, hd, bind, Except.bind] at h
  | false =>
    cases hf : hasNul fp with
    | true => simp [is_safe_path, pyResolve, hd, hf, bind, Except.bind] at h
    | false => exact ⟨rfl, rfl⟩

theorem hasNul_append (a b : List Char) :
    hasNul (a ++ b) = (hasNul a || hasNul b) := by
  simp [hasNul, List.contains, List.elem_eq_mem]

theorem hasNul_osJoin {output_dir fp : List Char}
    (hd : hasNul output_dir = false) (hf : hasNul fp = false) :
    hasNul (osJoin output_dir fp) = false := by
  unfold osJoin
  split
  · exact hf
  · split
    · rw [hasNul_append, hd, hf]; rfl
    · rw [hasNul_append, hd]
      simpa [hasNul] using hf

theorem resolve_osJoin_ok {cwd : AbsPath} {output_dir fp : List Char} {b : Bool}
    (h : is_safe_path cwd output_dir fp = .ok b) :
    ∃ k, pyResolve cwd (osJoin output_dir fp) = .ok k := by
  obtain ⟨hd, hf⟩ := is_safe_path_ok_no_nul h
  unfold pyResolve
  rw [hasNul_osJoin hd hf]
  exact ⟨_, rfl⟩

theorem wfGo_stops (cwd : AbsPath) (output_dir : List Char) (ioOk : Nat → Bool) :
    ∀ (files : List (List Char × List Char)) (i : Nat)
      (pr : List Char × List Char) (fs : FS) (acc : List (List Char)) (idx : Nat),
      files[i]? = some pr →
      (∀ j, j < i →
        match files[j]? with
        | some prj => stepOk cwd output_dir ioOk (idx + j) prj
        | none => True) →
      ¬ stepOk cwd output_dir ioOk (idx + i) pr →
      wfGo cwd output_dir ioOk idx files fs acc =
        ⟨fsAfterWrites cwd output_dir fs (files.take i),
         acc.reverse ++ (files.take i).map (fun prj => osJoin output_dir prj.1),
         some 1⟩ := by
  intro files
  induction files with
  | nil => intro i pr fs acc idx h; simp at h
  | cons hd rest ih =>
    intro i pr fs acc idx h hbelow hfail
    obtain ⟨fp, content⟩ := hd
    cases i with
    | zero =>
      simp only [List.getElem?_cons_zero, Option.some.injEq] at h
      subst h
      rw [Nat.add_zero] at hfail
      simp only [List.take_zero, fsAfterWrites, List.foldl_nil, List.map_nil,
        List.append_nil]
      cases hs : is_safe_path cwd output_dir fp with
      | error e => cases e; simp [wfGo, hs]
      | ok b =>
        cases b with
        | false => simp [wfGo, hs]
        | true =>
          cases hio : ioOk idx with
          | false => simp [wfGo, hs, hio]
          | true => exact absurd ⟨hs, hio⟩ hfail
    | succ i =>
      have hstep0 : stepOk cwd output_dir ioOk idx (fp, content) := by
        have := hbelow 0 (Nat.succ_pos i)
        simpa using this
      obtain ⟨hs, hio⟩ := hstep0
      obtain ⟨k, hk⟩ := resolve_osJoin_ok hs
      have hrec := ih i pr ((k, content) :: fs)
        (osJoin output_dir fp :: acc) (idx + 1)
        (by simpa using h)
        (by
          intro j hj
          have := hbelow (j + 1) (Nat.succ_lt_succ hj)
          have harith : idx + (j + 1) = idx + 1 + j := by omega
          simpa [harith] using this)
        (by
          have harith : idx + (i + 1) = idx + 1 + i := by omega
          rw [harith] at hfail
          exact hfail)
      have hunfold : wfGo cwd output_dir ioOk idx ((fp, content) :: rest) fs acc =
          wfGo cwd output_dir ioOk (idx + 1) rest ((k, content) :: fs)
            (osJoin output_dir fp :: acc) := by
        simp [wfGo, hs, hio, writeStep, hk, bind, Except.bind]
      rw [hunfold, hrec]
      have hfsa : fsAfterWrites cwd output_dir fs (((fp, content) :: rest).take (i + 1)) =
          fsAfterWrites cwd output_dir ((k, content) :: fs) (rest.take i) := by
        simp [fsAfterWrites, List.take_succ_cons, hk]
      rw [hfsa]
      simp [List.take_succ_cons]

/-- **C5**: `write_files` processes sections in order; at the first failing
step (unsafe path, resolution error, or I/O failure) it stops at once — no
later section is attempted — reports exactly the files written before the
failure, exits with status 1, and keeps every file already written (no
rollback). -/
theorem write_files_stops_at_first_error :
    ∀ (cwd : AbsPath) (files : List (List Char × List Char))
      (output_dir : List Char) (fs : FS) (ioOk : Nat → Bool)
      (i : Nat) (pr : List Char × List Char),
      files[i]? = some pr →
      stepsOkBelow cwd output_dir ioOk files i →
      ¬ stepOk cwd output_dir ioOk i pr →
      write_files cwd files output_dir fs ioOk =
        ⟨fsAfterWrites cwd output_dir fs (files.take i),
         (files.take i).map (fun prj => osJoin output_dir prj.1),
         some 1⟩ := by
  intro cwd files output_dir fs ioOk i pr h hbelow hfail
  have := wfGo_stops cwd output_dir ioOk files i pr fs [] 0 h
    (by intro j hj; simpa using hbelow j hj)
    (by simpa using hfail)
  simpa [write_files] using this

/-- Witness for C5: the second section's path escapes the output directory,
so only the first file is written, exit status is 1, and the first write
is kept. -/
theorem write_files_stops_at_first_error_witness :
    write_files [] [(("a.txt").data, ("x").data), (("../b.txt").data, ("y").data)]
      ("/out").data [] (fun _ => true) =
      ⟨fsAfterWrites [] ("/out").data []
         ([(("a.txt").data, ("x").data), (("../b.txt").data, ("y").data)].take 1),
       ([(("a.txt").data, ("x").data), (("../b.txt").data, ("y").data)].take 1).map
         (fun prj => osJoin ("/out").data prj.1),
       some 1⟩ :=
  write_files_stops_at_first_error []
    [(("a.txt").data, ("x").data), (("../b.txt").data, ("y").data)]
    ("/out").data [] (fun _ => true) 1 (("../b.txt").data, ("y").data)
    (by decide) (by decide) (by decide)

theorem wfGo_all_ok (cwd : AbsPath) (output_dir : List Char) (ioOk : Nat → Bool) :
    ∀ (files : List (List Char × List Char)) (fs : FS)
      (acc : List (List Char)) (idx : Nat),
      (∀ j, match files[j]? with
        | some prj => stepOk cwd output_dir ioOk (idx + j) prj
        | none => True) →
      wfGo cwd output_dir ioOk idx files fs acc =
        ⟨fsAfterWrites cwd output_dir fs files,
         acc.reverse ++ files.map (fun prj => osJoin output_dir prj.1), none⟩ := by
  intro files
  induction files with
  | nil =>
    intro fs acc idx _
    simp [wfGo, fsAfterWrites]
  | cons hd rest ih =>
    intro fs acc idx hall
    obtain ⟨fp, content⟩ := hd
    have hstep0 : stepOk cwd output_dir ioOk idx (fp, content) := by
      have := hall 0
      simpa using this
    obtain ⟨hs, hio⟩ := hstep0
    obtain ⟨k, hk⟩ := resolve_osJoin_ok hs
    have hrec := ih ((k, content) :: fs) (osJoin output_dir fp :: acc) (idx + 1)
      (by
        intro j
        have := hall (j + 1)
        have harith : idx + (j + 1) = idx + 1 + j := by omega
        simpa [harith] using this)
    have hunfold : wfGo cwd output_dir ioOk idx ((fp, content) :: rest) fs acc =
        wfGo cwd output_dir ioOk (idx + 1) rest ((k, content) :: fs)
          (osJoin output_dir fp :: acc) := by
      simp [wfGo, hs, hio, writeStep, hk, bind, Except.bind]
    rw [hunfold, hrec]
    have hfsa : fsAfterWrites cwd output_dir fs ((fp, content) :: rest) =
        fsAfterWrites cwd output_dir ((k, content) :: fs) rest := by
      simp [fsAfterWrites, hk]
    rw [hfsa]
    simp

theorem fsLookup_cons (k key : AbsPath) (c : List Char) (fs : FS) :
    fsLookup ((key, c) :: fs) k = if key = k then some c else fsLookup fs k := by
  by_cases hk : key = k <;> simp [fsLookup, List.find?_cons, hk]

theorem foldl_lastContent (cwd : AbsPath) (output_dir : List Char) (k : AbsPath) :
    ∀ (files : List (List Char × List Char)) (a : Option (List Char)),
      files.foldl (fun acc pr =>
        if pyResolve cwd (osJoin output_dir pr.1) = .ok k then some pr.2 else acc) a =
      (lastContentFor cwd output_dir files k).or a := by
  intro files
  induction files with
  | nil => intro a; simp [lastContentFor]
  | cons hd rest ih =>
    intro a
    rw [List.foldl_cons, ih]
    have hR : lastContentFor cwd output_dir (hd :: rest) k =
        (lastContentFor cwd output_dir rest k).or
          (if pyResolve cwd (osJoin output_dir hd.1) = .ok k
           then some hd.2 else none) := by
      show List.foldl _ _ (hd :: rest) = _
      rw [List.foldl_cons, ih]
    rw [hR, Option.or_assoc]
    congr 1
    by_cases hc : pyResolve cwd (osJoin output_dir hd.1) = .ok k <;> simp [hc]

theorem lastContentFor_cons (cwd : AbsPath) (output_dir : List Char)
    (hd : List Char × List Char) (rest : List (List Char × List Char))
    (k : AbsPath) :
    lastContentFor cwd output_dir (hd :: rest) k =
      (lastContentFor cwd output_dir rest k).or
        (if pyResolve cwd (osJoin output_dir hd.1) = .ok k
         then some hd.2 else none) := by
  show List.foldl _ _ (hd :: rest) = _
  rw [List.foldl_cons, foldl_lastContent]

theorem fsLookup_fsAfterWrites (cwd : AbsPath) (output_dir : List Char) (k : AbsPath) :
    ∀ (files : List (List Char × List Char)) (fs : FS),
      fsLookup (fsAfterWrites cwd output_dir fs files) k =
        (lastContentFor cwd output_dir files k).or (fsLookup fs k) := by
  intro files
  induction files with
  | nil => intro fs; simp [fsAfterWrites, lastContentFor]
  | cons hd rest ih =>
    intro fs
    rw [lastContentFor_cons, Option.or_assoc]
    cases hr : pyResolve cwd (osJoin output_dir hd.1) with
    | ok key =>
      have hstep : fsAfterWrites cwd output_dir fs (hd :: rest) =
          fsAfterWrites cwd output_dir ((key, hd.2) :: fs) rest := by
        simp [fsAfterWrites, hr]
      rw [hstep, ih, fsLookup_cons]
      congr 1
      by_cases hk : key = k <;> simp [hk]
    | error e =>
      have hstep : fsAfterWrites cwd output_dir fs (hd :: rest) =
          fsAfterWrites cwd output_dir fs rest := by
        simp [fsAfterWrites, hr]
      rw [hstep, ih]
      simp

/-- **C8**: when every step succeeds, `write_files` writes all sections in
listed order (the report lists one target per section, in order), and for
any resolved path the resulting file content is exactly that of the *last*
section mapping to that path — later duplicates overwrite earlier ones. -/
theorem duplicate_paths_last_write_wins :
    ∀ (cwd : AbsPath) (files : List (List Char × List Char))
      (output_dir : List Char) (fs : FS) (ioOk : Nat → Bool),
      stepsOkBelow cwd output_dir ioOk files files.length →
      (write_files cwd files output_dir fs ioOk).exitCode = none ∧
      (write_files cwd files output_dir fs ioOk).written =
        files.map (fun pr => osJoin output_dir pr.1) ∧
      ∀ k : AbsPath,
        fsLookup (write_files cwd files output_dir fs ioOk).fs k =
          (lastContentFor cwd output_dir files k).or (fsLookup fs k) := by
  intro cwd files output_dir fs ioOk hall
  have hfull := wfGo_all_ok cwd output_dir ioOk files fs [] 0
    (by
      intro j
      cases hj : files[j]? with
      | none => simp
      | some prj =>
        have hlt : j < files.length := by
          by_contra hge
          rw [List.getElem?_eq_none (Nat.le_of_not_lt hge)] at hj
          exact absurd hj (by simp)
        have := hall j hlt
        rw [hj] at this
        simpa using this)
  have hw : write_files cwd files output_dir fs ioOk =
      ⟨fsAfterWrites cwd output_dir fs files,
       files.map (fun prj => osJoin output_dir prj.1), none⟩ := by
    simpa [write_files] using hfull
  rw [hw]
  exact ⟨rfl, rfl, fun k => fsLookup_fsAfterWrites cwd output_dir k files fs⟩

/-- Witness for C8: two sections with the same path; the final content at
the resolved path is the second section's. -/
theorem duplicate_paths_last_write_wins_witness :
    fsLookup (write_files [] [(("a.txt").data, ("one").data),
        (("a.txt").data, ("two").data)] ("/out").data [] (fun _ => true)).fs
      [("out").data, ("a.txt").data] =
      (lastContentFor [] ("/out").data
        [(("a.txt").data, ("one").data), (("a.txt").data, ("two").data)]
        [("out").data, ("a.txt").data]).or
        (fsLookup [] [("out").data, ("a.txt").data]) :=
  (duplicate_paths_last_write_wins []
      [(("a.txt").data, ("one").data), (("a.txt").data, ("two").data)]
      ("/out").data [] (fun _ => true) (by decide)).2.2
    [("out").data, ("a.txt").data]

/-! ## The confirmation prompt -/

/-- **C7**: when the operator declines the prompt with `"n"`, or interrupts
during the prompt (`KeyboardInterrupt`/`EOFError`, modelled as `none`), the
process exits with status 0 and no file is written. -/
theorem decline_or_interrupt_exits_zero :
    ∀ (cwd : AbsPath) (s output_dir : List Char) (fs : FS)
      (answer : Option (List Char)) (ioOk : Nat → Bool),
      list_files_status cwd (parse_concatenated_file s) output_dir = .ok false →
      (answer = none ∨ answer = some ['n']) →
      mainAfterRead cwd s output_dir fs answer ioOk = ⟨0, fs, [], false⟩ := by
  intro cwd s output_dir fs answer ioOk hsafe hans
  unfold mainAfterRead
  cases hE : (parse_concatenated_file s).isEmpty with
  | true => simp only [hE, if_true]
  | false =>
    simp only [hE, Bool.false_eq_true, if_false, hsafe]
    rcases hans with rfl | rfl
    · rfl
    · have : pyLowerStr (pyStrip ['n']) = ['n'] := by decide
      simp [this]

/-- Witness for C7: declining with `"n"` on the example input. -/
theorem decline_or_interrupt_exits_zero_witness :
    mainAfterRead [] exInput ("/out").data [] (some ['n']) (fun _ => true) =
      ⟨0, [], [], false⟩ :=
  decline_or_interrupt_exits_zero [] exInput ("/out").data [] (some ['n'])
    (fun _ => true) (by decide) (Or.inr rfl)

/-- **C10**: once the prompt is reached, a reply is a decline exactly when
it strips and lowercases to `"n"` or `"no"`; every other reply — the empty
one included — is an acceptance, and the run's outcome is then exactly that
of `write_files` on the parsed sections. -/
theorem only_n_or_no_declines :
    ∀ (cwd : AbsPath) (s output_dir : List Char) (fs : FS)
      (a : List Char) (ioOk : Nat → Bool),
      parse_concatenated_file s ≠ [] →
      list_files_status cwd (parse_concatenated_file s) output_dir = .ok false →
      mainAfterRead cwd s output_dir fs (some a) ioOk =
        (if pyLowerStr (pyStrip a) = ['n'] ∨ pyLowerStr (pyStrip a) = ['n', 'o']
         then ⟨0, fs, [], false⟩
         else
           ⟨(write_files cwd (parse_concatenated_file s) output_dir fs ioOk).exitCode.getD 0,
            (write_files cwd (parse_concatenated_file s) output_dir fs ioOk).fs,
            (write_files cwd (parse_concatenated_file s) output_dir fs ioOk).written,
            false⟩) := by
  intro cwd s output_dir fs a ioOk hne hsafe
  unfold mainAfterRead
  have hE : (parse_concatenated_file s).isEmpty = false :=
    List.isEmpty_eq_false.mpr hne
  simp only [hE, Bool.false_eq_true, if_false, hsafe]
  by_cases hc : pyLowerStr (pyStrip a) = ['n'] ∨ pyLowerStr (pyStrip a) = ['n', 'o']
  · rw [if_pos hc, if_pos hc]
  · rw [if_neg hc, if_neg hc]
    cases hx : (write_files cwd (parse_concatenated_file s) output_dir fs ioOk).exitCode with
    | none => simp [hx]
    | some c => simp [hx]

/-- Witness for C10: the empty reply accepts and the writer runs. -/
theorem only_n_or_no_declines_witness :
    mainAfterRead [] exInput ("/out").data [] (some []) (fun _ => true) =
      (if pyLowerStr (pyStrip []) = ['n'] ∨ pyLowerStr (pyStrip []) = ['n', 'o']
       then ⟨0, [], [], false⟩
       else
         ⟨(write_files [] (parse_concatenated_file exInput) ("/out").data []
             (fun _ => true)).exitCode.getD 0,
          (write_files [] (parse_concatenated_file exInput) ("/out").data []
             (fun _ => true)).fs,
          (write_files [] (parse_concatenated_file exInput) ("/out").data []
             (fun _ => true)).written,
          false⟩) :=
  only_n_or_no_declines [] exInput ("/out").data [] [] (fun _ => true)
    (by decide) (by decide)

/-! ## Translation invariance of the scan: dropping the text before the
first match leaves the parse unchanged -/

/-- Shift a match of a suffix back to coordinates of the full input. -/
def shiftM (k : Nat) (m : RMatch) : RMatch :=
  ⟨m.start + k, m.stop + k, m.gstart + k, m.gstop + k⟩

theorem findSome?_ext {α β : Type} (f g : α → Option β) :
    ∀ (l : List α), (∀ a ∈ l, f a = g a) → l.findSome? f = l.findSome? g := by
  intro l
  induction l with
  | nil => intro _; rfl
  | cons a t ih =>
    intro h
    rw [List.findSome?_cons, List.findSome?_cons, h a (List.mem_cons_self _ _)]
    cases g a with
    | some b => rfl
    | none => exact ih fun x hx => h x (List.mem_cons_of_mem _ hx)

theorem drop_shift {s : List Char} {k p : Nat} (hkp : k ≤ p) :
    s.drop p = (s.drop k).drop (p - k) := by
  rw [List.drop_drop]
  congr 1
  omega

theorem litAt_shift {s : List Char} {k p : Nat} (hkp : k ≤ p) (lit : List Char) :
    litAt s p lit = litAt (s.drop k) (p - k) lit := by
  unfold litAt
  rw [drop_shift hkp]

theorem wsRun_shift {s : List Char} {k p : Nat} (hkp : k ≤ p) :
    wsRun s p = wsRun (s.drop k) (p - k) := by
  unfold wsRun
  rw [drop_shift hkp]

theorem dotRun_shift {s : List Char} {k p : Nat} (hkp : k ≤ p) :
    dotRun s p = dotRun (s.drop k) (p - k) := by
  unfold dotRun
  rw [drop_shift hkp]

theorem getElem?_shift {s : List Char} {k p : Nat} (hkp : k ≤ p) :
    s[p]? = (s.drop k)[p - k]? := by
  rw [List.getElem?_drop]
  congr 1
  omega

theorem atLineEnd_shift {s : List Char} {k p : Nat} (hkp : k ≤ p)
    (hks : k ≤ s.length) :
    atLineEnd s p = atLineEnd (s.drop k) (p - k) := by
  unfold atLineEnd
  rw [List.length_drop, ← getElem?_shift hkp]
  congr 1
  by_cases h : p = s.length
  · simp [h]
  · have h2 : p - k ≠ s.length - k := by omega
    simp [h, h2]

theorem atLineStart_shift {s : List Char} {k p : Nat} (hkp : k ≤ p)
    (hk : atLineStart s k = true) :
    atLineStart s p = atLineStart (s.drop k) (p - k) := by
  by_cases hp : p = k
  · subst hp
    rw [Nat.sub_self, hk]
    simp [atLineStart]
  · have hklt : k < p := Nat.lt_of_le_of_ne hkp (fun h => hp h.symm)
    unfold atLineStart
    have h1 : (p == 0) = false := by
      simp only [beq_eq_false_iff_ne]; omega
    have h2 : (p - k == 0) = false := by
      simp only [beq_eq_false_iff_ne]; omega
    rw [h1, h2, Bool.false_or, Bool.false_or,
      getElem?_shift (show k ≤ p - 1 by omega)]
    congr 2
    omega

theorem findDecomp_shift {s : List Char} {k q : Nat} (hkq : k ≤ q)
    (hks : k ≤ s.length) :
    findDecomp s q = findDecomp (s.drop k) (q - k) := by
  unfold findDecomp
  rw [← wsRun_shift hkq]
  apply findSome?_ext
  intro a _
  have e1 : q - k + a = q + a - k := by omega
  rw [e1, ← dotRun_shift (show k ≤ q + a by omega)]
  apply findSome?_ext
  intro c _
  have e2 : q + a - k + c = q + a + c - k := by omega
  rw [e2, ← wsRun_shift (show k ≤ q + a + c by omega)]
  apply findSome?_ext
  intro b _
  have e3 : q + a + c - k + b = q + a + c + b - k := by omega
  have e4 : q + a + c + b - k + 5 = q + a + c + b + 5 - k := by omega
  rw [e3, e4, ← litAt_shift (show k ≤ q + a + c + b by omega),
    ← atLineEnd_shift (show k ≤ q + a + c + b + 5 by omega) hks]

theorem findMatchAt_shift {s : List Char} {k p : Nat} (hkp : k ≤ p)
    (hk : atLineStart s k = true) (hks : k ≤ s.length) :
    findMatchAt s p = (findMatchAt (s.drop k) (p - k)).map (shiftM k) := by
  unfold findMatchAt
  rw [← atLineStart_shift hkp hk, ← litAt_shift hkp markerLit]
  cases hcond : atLineStart s p && litAt s p markerLit with
  | false => rfl
  | true =>
    have hdec : findDecomp s (p + 11) = findDecomp (s.drop k) (p - k + 11) := by
      rw [findDecomp_shift (show k ≤ p + 11 by omega) hks]
      congr 1
      omega
    rw [hdec]
    cases hd2 : findDecomp (s.drop k) (p - k + 11) with
    | none => rfl
    | some acb =>
      obtain ⟨a, c, b⟩ := acb
      simp only [if_true, Option.map_some', shiftM, Option.some.injEq,
        RMatch.mk.injEq]
      omega

theorem atLineEnd_le {s : List Char} {p : Nat} (h : atLineEnd s p = true) :
    p ≤ s.length := by
  unfold atLineEnd at h
  rcases Bool.or_eq_true_iff.mp h with h1 | h2
  · exact Nat.le_of_eq (by simpa using h1)
  · have h3 : s[p]? = some '\n' := by simpa using h2
    by_contra hgt
    rw [List.getElem?_eq_none (by omega)] at h3
    exact absurd h3 (by simp)

theorem findDecomp_spec {s : List Char} {q a c b : Nat}
    (h : findDecomp s q = some (a, c, b)) :
    litAt s (q + a + c + b) eqFive = true ∧
    atLineEnd s (q + a + c + b + 5) = true := by
  unfold findDecomp at h
  obtain ⟨a', _, h2⟩ := List.exists_of_findSome?_eq_some h
  obtain ⟨c', _, h3⟩ := List.exists_of_findSome?_eq_some h2
  obtain ⟨b', _, h4⟩ := List.exists_of_findSome?_eq_some h3
  by_cases hcond : (litAt s (q + a' + c' + b') eqFive &&
      atLineEnd s (q + a' + c' + b' + 5)) = true
  · rw [if_pos hcond] at h4
    obtain ⟨rfl, rfl, rfl⟩ : a' = a ∧ c' = c ∧ b' = b := by
      have := Option.some.inj h4
      exact ⟨congrArg Prod.fst this,
        congrArg Prod.fst (congrArg Prod.snd this),
        congrArg Prod.snd (congrArg Prod.snd this)⟩
    exact Bool.and_eq_true_iff.mp hcond
  · rw [if_neg hcond] at h4
    exact absurd h4 (by simp)

theorem findMatchAt_facts {s : List Char} {p : Nat} {m : RMatch}
    (h : findMatchAt s p = some m) :
    atLineStart s p = true ∧ m.start = p ∧ p + 16 ≤ m.stop ∧
    atLineEnd s m.stop = true := by
  unfold findMatchAt at h
  by_cases hcond : (atLineStart s p && litAt s p markerLit) = true
  · rw [if_pos hcond] at h
    obtain ⟨hline, _⟩ := Bool.and_eq_true_iff.mp hcond
    cases hdec : findDecomp s (p + 11) with
    | none => rw [hdec] at h; exact absurd h (by simp)
    | some acb =>
      obtain ⟨a, c, b⟩ := acb
      rw [hdec] at h
      have hm := Option.some.inj h
      subst hm
      refine ⟨hline, rfl, ?_, ?_⟩
      · show p + 16 ≤ p + 11 + a + c + b + 5
        omega
      · show atLineEnd s (p + 11 + a + c + b + 5) = true
        exact (findDecomp_spec hdec).2
  · rw [if_neg hcond] at h
    exact absurd h (by simp)

theorem ffGo_some_facts {s : List Char} :
    ∀ (fuel pos : Nat) (m : RMatch), ffGo s fuel pos = some m →
      pos ≤ m.start ∧ findMatchAt s m.start = some m := by
  intro fuel
  induction fuel with
  | zero => intro pos m h; exact absurd h (by simp [ffGo])
  | succ fuel ih =>
    intro pos m h
    simp only [ffGo] at h
    by_cases hle : pos ≤ s.length
    · rw [if_pos hle] at h
      cases hm : findMatchAt s pos with
      | some m0 =>
        rw [hm] at h
        have : m0 = m := Option.some.inj h
        subst this
        have := findMatchAt_facts hm
        exact ⟨this.2.1 ▸ Nat.le_refl _, this.2.1 ▸ hm⟩
      | none =>
        rw [hm] at h
        have := ih (pos + 1) m h
        exact ⟨by omega, this.2⟩
    · rw [if_neg hle] at h
      exact absurd h (by simp)

theorem findFirstFrom_facts {s : List Char} {pos : Nat} {m : RMatch}
    (h : findFirstFrom s pos = some m) :
    pos ≤ m.start ∧ findMatchAt s m.start = some m :=
  ffGo_some_facts _ _ m h

theorem findFirstFrom_at {s : List Char} {pos : Nat} {m : RMatch}
    (hle : pos ≤ s.length) (hm : findMatchAt s pos = some m) :
    findFirstFrom s pos = some m := by
  unfold findFirstFrom
  have hfuel : s.length + 1 - pos = (s.length - pos) + 1 := by omega
  rw [hfuel]
  simp [ffGo, hle, hm]

theorem findFirstFrom_none_of_big {s : List Char} {pos : Nat}
    (h : s.length + 1 ≤ pos) : findFirstFrom s pos = none := by
  unfold findFirstFrom
  have hfuel : s.length + 1 - pos = 0 := by omega
  rw [hfuel]
  rfl

theorem scanFrom_fuel (s : List Char) :
    ∀ (f₁ f₂ pos : Nat), s.length + 1 - pos ≤ f₁ → s.length + 1 - pos ≤ f₂ →
      scanFrom s f₁ pos = scanFrom s f₂ pos := by
  intro f₁
  induction f₁ with
  | zero =>
    intro f₂ pos h1 _
    cases f₂ with
    | zero => rfl
    | succ n =>
      show [] = scanFrom s (n + 1) pos
      simp only [scanFrom]
      rw [findFirstFrom_none_of_big (by omega)]
  | succ f₁ ih =>
    intro f₂ pos h1 h2
    cases f₂ with
    | zero =>
      show scanFrom s (f₁ + 1) pos = []
      simp only [scanFrom]
      rw [findFirstFrom_none_of_big (by omega)]
    | succ f₂' =>
      show scanFrom s (f₁ + 1) pos = scanFrom s (f₂' + 1) pos
      simp only [scanFrom]
      cases hf : findFirstFrom s pos with
      | none => rfl
      | some m =>
        obtain ⟨hpos, hmatch⟩ := findFirstFrom_facts hf
        obtain ⟨_, _, hstop16, hend⟩ := findMatchAt_facts hmatch
        have hstople := atLineEnd_le hend
        show m :: scanFrom s f₁ m.stop = m :: scanFrom s f₂' m.stop
        rw [ih f₂' m.stop (by omega) (by omega)]

theorem ffGo_shift {s : List Char} {k : Nat}
    (hk : atLineStart s k = true) (hks : k ≤ s.length) :
    ∀ (fuel pos : Nat), k ≤ pos →
      ffGo s fuel pos = (ffGo (s.drop k) fuel (pos - k)).map (shiftM k) := by
  intro fuel
  induction fuel with
  | zero => intro pos _; rfl
  | succ fuel ih =>
    intro pos hkp
    simp only [ffGo]
    have hcond : (pos ≤ s.length) ↔ (pos - k ≤ (s.drop k).length) := by
      rw [List.length_drop]; omega
    by_cases hle : pos ≤ s.length
    · rw [if_pos hle, if_pos (hcond.mp hle)]
      rw [findMatchAt_shift hkp hk hks]
      cases findMatchAt (s.drop k) (pos - k) with
      | some m' => rfl
      | none =>
        simp only [Option.map_none']
        have e1 : pos + 1 - k = pos - k + 1 := by omega
        rw [ih (pos + 1) (by omega), e1]
    · rw [if_neg hle, if_neg (fun hcontra => hle (hcond.mpr hcontra))]
      rfl

theorem scanFrom_shift {s : List Char} {k : Nat}
    (hk : atLineStart s k = true) (hks : k ≤ s.length) :
    ∀ (fuel pos : Nat), k ≤ pos →
      scanFrom s fuel pos = (scanFrom (s.drop k) fuel (pos - k)).map (shiftM k) := by
  intro fuel
  induction fuel with
  | zero => intro pos _; rfl
  | succ fuel ih =>
    intro pos hkp
    simp only [scanFrom]
    have hff : findFirstFrom s pos =
        (findFirstFrom (s.drop k) (pos - k)).map (shiftM k) := by
      unfold findFirstFrom
      have hfuel : s.length + 1 - pos = (s.drop k).length + 1 - (pos - k) := by
        rw [List.length_drop]; omega
      rw [hfuel]
      exact ffGo_shift hk hks _ pos hkp
    rw [hff]
    cases hft : findFirstFrom (s.drop k) (pos - k) with
    | none => rfl
    | some m' =>
      simp only [Option.map_some', List.map_cons]
      congr 1
      have e1 : m'.stop + k - k = m'.stop := by omega
      have := ih (m'.stop + k) (by omega)
      rw [e1] at this
      show scanFrom s fuel (shiftM k m').stop = _
      exact this

theorem slice_shift {s : List Char} {k : Nat} (a b : Nat) :
    slice s (a + k) (b + k) = slice (s.drop k) a b := by
  unfold slice
  rw [List.drop_drop]
  have e1 : b + k - (a + k) = b - a := by omega
  have e2 : k + a = a + k := by omega
  rw [e1, e2]

theorem sectionsFrom_shift {s : List Char} {k : Nat} (hks : k ≤ s.length) :
    ∀ (ms : List RMatch),
      sectionsFrom s (ms.map (shiftM k)) = sectionsFrom (s.drop k) ms := by
  intro ms
  induction ms with
  | nil => rfl
  | cons m ms' ih =>
    have hlen : s.length = (s.drop k).length + k := by
      rw [List.length_drop]; omega
    cases ms' with
    | nil =>
      simp only [List.map_cons, List.map_nil, sectionsFrom, shiftM]
      rw [slice_shift, hlen, slice_shift]
    | cons m2 ms'' =>
      simp only [List.map_cons, sectionsFrom, shiftM] at ih ⊢
      rw [slice_shift, slice_shift]
      exact congrArg _ ih

/-- **C9**: all text preceding the first marker match is discarded: parsing
the input gives exactly the same sections as parsing the suffix that starts
at the first match. -/
theorem text_before_first_marker_discarded :
    ∀ (s : List Char) (m0 : RMatch) (rest : List RMatch),
      findIter s = m0 :: rest →
      parse_concatenated_file s = parse_concatenated_file (s.drop m0.start) := by
  intro s m0 rest h
  have hscan := h
  unfold findIter at hscan
  simp only [scanFrom] at hscan
  cases hf : findFirstFrom s 0 with
  | none => rw [hf] at hscan; exact absurd hscan (by simp)
  | some m =>
    rw [hf] at hscan
    injection hscan with h1 h2
    subst h1
    obtain ⟨_, hmatch⟩ := findFirstFrom_facts hf
    obtain ⟨hline, _, hstop16, hend⟩ := findMatchAt_facts hmatch
    have hstople := atLineEnd_le hend
    have hks : m.start ≤ s.length := by omega
    have hiter : findIter s = (findIter (s.drop m.start)).map (shiftM m.start) := by
      unfold findIter
      rw [List.length_drop]
      have hshift := scanFrom_shift hline hks (s.length - m.start + 1) m.start
        (Nat.le_refl _)
      rw [Nat.sub_self] at hshift
      rw [← hshift]
      have hffk : findFirstFrom s m.start = some m := findFirstFrom_at hks hmatch
      simp only [scanFrom]
      rw [hf, hffk]
      show m :: scanFrom s s.length m.stop =
        m :: scanFrom s (s.length - m.start) m.stop
      rw [scanFrom_fuel s s.length (s.length - m.start) m.stop
        (by omega) (by omega)]
    calc parse_concatenated_file s
        = sectionsFrom s ((findIter (s.drop m.start)).map (shiftM m.start)) := by
          rw [parse_concatenated_file, hiter]
      _ = sectionsFrom (s.drop m.start) (findIter (s.drop m.start)) :=
          sectionsFrom_shift hks _
      _ = parse_concatenated_file (s.drop m.start) := rfl

/-- Witness for C9: leading junk before the first marker does not change
the parse. -/
theorem text_before_first_marker_discarded_witness :
    parse_concatenated_file ("junk\n===== FILE: x =====\nbody").data =
      parse_concatenated_file
        (("junk\n===== FILE: x =====\nbody").data.drop
          (RMatch.start ⟨5, 24, 17, 18⟩)) :=
  text_before_first_marker_discarded ("junk\n===== FILE: x =====\nbody").data
    ⟨5, 24, 17, 18⟩ [] (by decide)

end Splitter
